import Mathlib

/- Shallow embedding of the python-graphs repository: the `Graph` class of
weightedGraph.py and the `dijkstra` function of dijkstras-algorithm.py.

Matrix cells hold `Option ℤ` (`none` models Python `None`); distances live in
`WithTop ℤ`, modelling `float("inf")` together with integer costs.  Python
list indexing is modelled with `List.getD` / `List.set`; both the Python code
and all theorems below only index within bounds for graphs built through the
public API (the `Built` predicate), so the out-of-range defaults are never
exercised by any theorem. -/

namespace PythonGraphs

/-- An adjacency-matrix cell: `some c` is a stored cost, `none` is Python `None`. -/
abbrev Cell := Option ℤ

/-- State of the `Graph` class: fields `_directed`, `_matrix`, `_nodes`, `_edges`. -/
structure Graph where
  directed : Bool
  matrix : List (List Cell)
  nodes : List ℕ
  edges : List (ℕ × ℕ × ℤ)
deriving DecidableEq

/-- `Graph.__init__(directed)`: the matrix starts as `[[None]]`, no nodes, no edges. -/
def Graph.init (directed : Bool) : Graph :=
  { directed := directed, matrix := [[none]], nodes := [], edges := [] }

/-- Property `y`: the height of the adjacency matrix (`len(self._matrix)`). -/
def Graph.y (g : Graph) : ℕ := g.matrix.length

/-- Property `x`: `0` if `y < 1`, else the width of the first matrix row. -/
def Graph.x (g : Graph) : ℕ := if g.y < 1 then 0 else (g.matrix.headD []).length

/-- Property `ncount`: `len(self._nodes)`. -/
def Graph.ncount (g : Graph) : ℕ := g.nodes.length

/-- Property `ecount`: `len(self._edges)`. -/
def Graph.ecount (g : Graph) : ℕ := g.edges.length

/-- The exceptions raised by the graph class.  `nodeNotFound` models the
`ValueError` raised by `list.index` when an endpoint is not a present node. -/
inductive GraphError
  | nonDirected
  | alreadyPopulated (source dest : ℕ) (cost : ℤ)
  | illegalArgument
  | nodeNotFound
deriving DecidableEq

/-- Python `list.index(v)`: index of the first occurrence, `none` models the
`ValueError` raised when `v` is absent. -/
def pyIndex (l : List ℕ) (v : ℕ) : Option ℕ :=
  match l with
  | [] => none
  | a :: r => if a = v then some 0 else (pyIndex r v).map (· + 1)

/-- `Graph._extendMatrix`: append `None` to every row, then append a fresh row
of `None`s whose length is the (new) value of `self.x`. -/
def Graph._extendMatrix (g : Graph) : Graph :=
  let m := g.matrix.map (fun row => row ++ [none])
  let w := if m.length < 1 then 0 else (m.headD []).length
  { g with matrix := m ++ [List.replicate w none] }

/-- `Graph._addEdge(source, destination, cost)`: raise on a self loop, look up
both endpoints with `list.index`, raise `AlreadyPopulatedError` if the target
cell is populated, otherwise store the cost and append the edge record.  The
post-state is returned alongside the result, so that partially-mutating
failures of callers can be expressed. -/
def Graph._addEdge (g : Graph) (source destination : ℕ) (cost : ℤ) :
    Except GraphError ℕ × Graph :=
  if source = destination then
    (Except.error GraphError.illegalArgument, g)
  else
    match pyIndex g.nodes destination, pyIndex g.nodes source with
    | some xi, some yi =>
      if ((g.matrix.getD yi []).getD xi none).isSome then
        (Except.error (GraphError.alreadyPopulated source destination cost), g)
      else
        (Except.ok g.edges.length,
          { g with
            matrix := g.matrix.set yi ((g.matrix.getD yi []).set xi (some cost)),
            edges := g.edges ++ [(source, destination, cost)] })
    | _, _ => (Except.error GraphError.nodeNotFound, g)

/-- `Graph.addNode()`: on the first call no extension happens (`last = -1`);
afterwards the matrix is extended and `last` is the final node id.  The id
`last + 1` is appended and returned. -/
def Graph.addNode (g : Graph) : ℕ × Graph :=
  if g.ncount = 0 then
    (0, { g with nodes := g.nodes ++ [0] })
  else
    let g' := g._extendMatrix
    let n := g'.nodes.getLastD 0 + 1
    (n, { g' with nodes := g'.nodes ++ [n] })

/-- Result of `Graph.addEdge`: one edge id, or the two ids of the pair of
directed records inserted for an undirected request on a directed graph. -/
inductive EdgeIds
  | one (id : ℕ)
  | two (a b : ℕ)
deriving DecidableEq

/-- `Graph.addEdge(source, destination, cost, directional)`.  The self-loop
check comes first; a directional request on an undirected graph raises
`NonDirectedError`; an undirected request on a directed graph performs two
`_addEdge` calls in sequence (so the first may commit before the second
fails); an undirected request on an undirected graph canonicalizes the pair
to `(min, max)` and performs one `_addEdge` call. -/
def Graph.addEdge (g : Graph) (source destination : ℕ) (cost : ℤ)
    (directional : Bool) : Except GraphError EdgeIds × Graph :=
  if source = destination then
    (Except.error GraphError.illegalArgument, g)
  else if directional then
    if !g.directed then
      (Except.error GraphError.nonDirected, g)
    else
      match g._addEdge source destination cost with
      | (Except.ok i, g') => (Except.ok (EdgeIds.one i), g')
      | (Except.error e, g') => (Except.error e, g')
  else
    if g.directed then
      match g._addEdge source destination cost with
      | (Except.ok i, g') =>
        match g'._addEdge destination source cost with
        | (Except.ok j, g'') => (Except.ok (EdgeIds.two i j), g'')
        | (Except.error e, g'') => (Except.error e, g'')
      | (Except.error e, g') => (Except.error e, g')
    else
      let fst := min source destination
      let snd := max source destination
      match g._addEdge fst snd cost with
      | (Except.ok i, g') => (Except.ok (EdgeIds.one i), g')
      | (Except.error e, g') => (Except.error e, g')

/-- `Graph.neighbours(node)`: scan row `node` appending `self.nodes[i]` for
every populated cell, then (undirected only) scan the rows `i < node` whose
cell in column `node` is populated. -/
def Graph.neighbours (g : Graph) (node : ℕ) : List ℕ :=
  let row := g.matrix.getD node []
  let fromRow := (List.range row.length).filterMap (fun i =>
    if (row.getD i none).isSome then some (g.nodes.getD i 0) else none)
  let fromCol :=
    if !g.directed then
      (List.range node).filterMap (fun i =>
        if ((g.matrix.getD i []).getD node none).isSome then some (g.nodes.getD i 0)
        else none)
    else []
  fromRow ++ fromCol

/-- `Graph.edge(source, destination)`: canonicalize to `(min, max)` when the
graph is undirected, return the stored cell if populated, otherwise (for
undirected graphs) check the opposite orientation, else `None`. -/
def Graph.edge (g : Graph) (source destination : ℕ) : Option ℤ :=
  let n1 := if g.directed = false then min source destination else source
  let n2 := if g.directed = false then max source destination else destination
  match (g.matrix.getD n1 []).getD n2 none with
  | some c => some c
  | none =>
    if g.directed = false then (g.matrix.getD n2 []).getD n1 none
    else none

/-! ## The dijkstra function of dijkstras-algorithm.py -/

/-- Distances: `float("inf")` together with integer path costs. -/
abbrev Dist := WithTop ℤ

/-- The ordering Python uses on the `(distance, node)` tuples fed to `min`. -/
def pairLT (a b : Dist × ℕ) : Prop := a.1 < b.1 ∨ (a.1 = b.1 ∧ a.2 < b.2)

instance (a b : Dist × ℕ) : Decidable (pairLT a b) := by
  unfold pairLT; infer_instance

/-- Python's `min` over a nonempty list: scan, replacing the current best only
by a strictly smaller element (so the first minimum wins on ties). -/
def foldMin : Dist × ℕ → List (Dist × ℕ) → Dist × ℕ
  | a, [] => a
  | a, b :: r => foldMin (if pairLT b a then b else a) r

/-- `min(options)[1]`: the node of the minimal `(distance[node], node)` pair
over the working set `u :: us`. -/
def pickMin (dist : List Dist) (u : ℕ) (us : List ℕ) : ℕ :=
  (foldMin (dist.getD u ⊤, u) (us.map fun n => (dist.getD n ⊤, n))).2

/-- The relaxation loop body: for each listed neighbour still in `unvisited`,
compute `distance[current] + graph.edge(current, neighbor)` and update
distance and predecessor when strictly smaller.  `graph.edge` never returns
`None` for a neighbour of an API-built graph (`edge_isSome_of_mem_neighbours`
below); the `none` branch is unreachable there and modelled as a no-op. -/
def relaxList (g : Graph) (unvisited : List ℕ) (current : ℕ) :
    List ℕ → List Dist → List (Option ℕ) → List Dist × List (Option ℕ)
  | [], dist, prev => (dist, prev)
  | m :: rest, dist, prev =>
    if m ∈ unvisited then
      match g.edge current m with
      | some c =>
        if dist.getD current ⊤ + (c : Dist) < dist.getD m ⊤ then
          relaxList g unvisited current rest
            (dist.set m (dist.getD current ⊤ + (c : Dist)))
            (prev.set m (some current))
        else relaxList g unvisited current rest dist prev
      | none => relaxList g unvisited current rest dist prev
    else relaxList g unvisited current rest dist prev

/-- The path-reconstruction loop: follow `previous` from `cur`, collecting the
nodes visited, until a node with no predecessor.  The fuel bounds the chain
length; exhaustion (`none`) models the nonterminating walk Python would make
on a cyclic predecessor table, which never arises in actual runs. -/
def pathWalk (previous : List (Option ℕ)) : ℕ → ℕ → Option (List ℕ)
  | _, 0 => none
  | cur, fuel + 1 =>
    match previous.getD cur none with
    | none => some [cur]
    | some p => (pathWalk previous p fuel).map (cur :: ·)

/-- The `while len(unvisited) != 0` loop of `dijkstra`: pick the minimum
`(distance, node)` pair; if it is the destination, immediately reconstruct
and return the reversed predecessor walk; otherwise relax the neighbours and
remove the current node.  An empty working set falls out of the loop and off
the end of the function: Python returns `None`.  The fuel is one unit per
iteration; callers pass `len(unvisited)`, which suffices because every
iteration removes one member, so the fuel-exhaustion branch is unreachable. -/
def dijkstraLoop (g : Graph) (destination : ℕ) :
    ℕ → List ℕ → List Dist → List (Option ℕ) → Option (List ℕ)
  | _, [], _, _ => none
  | 0, _ :: _, _, _ => none
  | fuel + 1, u :: us, dist, prev =>
    let current := pickMin dist u us
    if current = destination then
      (pathWalk prev destination (prev.length + 1)).map List.reverse
    else
      let dp := relaxList g (u :: us) current (g.neighbours current) dist prev
      dijkstraLoop g destination fuel ((u :: us).erase current) dp.1 dp.2

/-- `dijkstra(graph, source, destination)`: working set = a copy of
`graph.nodes`, all distances infinite except `distance[source] = 0`, all
predecessors `None`, then the main loop. -/
def dijkstra (g : Graph) (source destination : ℕ) : Option (List ℕ) :=
  let unvisited := g.nodes
  let distance := (List.replicate unvisited.length (⊤ : Dist)).set source 0
  let previous : List (Option ℕ) := List.replicate unvisited.length none
  dijkstraLoop g destination unvisited.length unvisited distance previous

/-! ## Concrete graphs used by the test fixtures and the theorems below -/

/-- Fold `addNode` a number of times (the driver's construction loop). -/
def addNodes (g : Graph) : ℕ → Graph
  | 0 => g
  | n + 1 => addNodes (g.addNode).2 n

/-- Fold undirected `addEdge` calls over a list of `(source, dest, cost)`. -/
def addEdges (g : Graph) : List (ℕ × ℕ × ℤ) → Graph
  | [] => g
  | (s, d, c) :: r => addEdges (g.addEdge s d c false).2 r

/-- The 10-node undirected demonstration graph of `main`. -/
def g10 : Graph :=
  addEdges (addNodes (Graph.init false) 10)
    [(0, 1, 6), (0, 3, 4), (0, 4, 2), (1, 4, 3), (1, 6, 5), (2, 3, 3),
     (2, 8, 10), (3, 4, 1), (5, 8, 5), (5, 9, 3), (5, 6, 6), (6, 7, 2),
     (7, 9, 2), (8, 9, 9)]

/-- Two isolated nodes, undirected: a two-component graph. -/
def g2 : Graph := addNodes (Graph.init false) 2

/-- One node, undirected. -/
def g1 : Graph := addNodes (Graph.init false) 1

/-- A directed graph with two nodes and a single directional edge 0 → 1. -/
def g2d : Graph := ((addNodes (Graph.init true) 2).addEdge 0 1 5 true).2

/-- Two undirected nodes joined by one edge (0, 1) with cost 3. -/
def g2e : Graph := (g2.addEdge 0 1 3 false).2

/-! ## Basic instances and list helpers -/

instance {ε α : Type} [DecidableEq ε] [DecidableEq α] : DecidableEq (Except ε α) := fun x y =>
  match x, y with
  | Except.ok a, Except.ok b =>
    if h : a = b then Decidable.isTrue (congrArg Except.ok h)
    else Decidable.isFalse (fun hc => h (Except.ok.inj hc))
  | Except.error a, Except.error b =>
    if h : a = b then Decidable.isTrue (congrArg Except.error h)
    else Decidable.isFalse (fun hc => h (Except.error.inj hc))
  | Except.ok _, Except.error _ => Decidable.isFalse (fun hc => Except.noConfusion hc)
  | Except.error _, Except.ok _ => Decidable.isFalse (fun hc => Except.noConfusion hc)

/-- The matrix cell at row `i`, column `j` (out-of-range reads are `none`). -/
def cellAt (g : Graph) (i j : ℕ) : Cell := (g.matrix.getD i []).getD j none

/-- Graph states reachable from construction through the public API (any
sequence of `addNode` and `addEdge` calls, including failing ones). -/
inductive Built : Graph → Prop
  | init (directed : Bool) : Built (Graph.init directed)
  | addNode {g : Graph} : Built g → Built (g.addNode).2
  | addEdge {g : Graph} (source destination : ℕ) (cost : ℤ) (directional : Bool) :
      Built g → Built (g.addEdge source destination cost directional).2

/-- Structural invariant of API-built graphs: node ids are `0 .. ncount-1` in
order; the matrix is the degenerate `[[None]]` while there are no nodes and
an `ncount × ncount` square afterwards; populated cells are never on the
diagonal and, for undirected graphs, lie strictly above it. -/
def Inv (g : Graph) : Prop :=
  g.nodes = List.range g.ncount ∧
  (g.ncount = 0 → g.matrix = [[none]]) ∧
  (1 ≤ g.ncount → g.matrix.length = g.ncount ∧ ∀ row ∈ g.matrix, row.length = g.ncount) ∧
  ∀ i j, (cellAt g i j).isSome → i ≠ j ∧ (g.directed = false → i < j)

/-- Modelled from the spec: the neighbour list is, in increasing node-index
scan order, the columns of row `node` with a populated cell, followed (for
undirected graphs only) by the rows `i < node` whose cell in column `node` is
populated. -/
def specNeighbours (g : Graph) (node : ℕ) : List ℕ :=
  ((List.range g.ncount).filter fun i => (cellAt g node i).isSome) ++
  if g.directed = false then
    (List.range node).filter fun i => (cellAt g i node).isSome
  else []

/-- One-edge adjacency as the path search sees it. -/
def adjStep (g : Graph) (a b : ℕ) : Prop := b ∈ g.neighbours a

instance (g : Graph) (a b : ℕ) : Decidable (adjStep g a b) := by
  unfold adjStep
  infer_instance

/-- Reachability from `s` along `neighbours` steps. -/
def reach (g : Graph) (s d : ℕ) : Prop := Relation.ReflTransGen (adjStep g) s d

/-- Invariant: nodes unreachable from the source keep an infinite distance and
no predecessor. -/
def UnreachClean (g : Graph) (s : ℕ) (dist : List Dist) (prev : List (Option ℕ)) : Prop :=
  ∀ m, ¬ reach g s m → dist.getD m ⊤ = ⊤ ∧ prev.getD m none = none

/-- The dijkstra loop once more, additionally exposing the working set and the
distance table at the moment of return (observation only; the first component
coincides with `dijkstraLoop`, see `dijkstraLoopT_fst`). -/
def dijkstraLoopT (g : Graph) (destination : ℕ) :
    ℕ → List ℕ → List Dist → List (Option ℕ) → Option (List ℕ) × List ℕ × List Dist
  | _, [], dist, _ => (none, [], dist)
  | 0, u :: us, dist, _ => (none, u :: us, dist)
  | fuel + 1, u :: us, dist, prev =>
    let current := pickMin dist u us
    if current = destination then
      ((pathWalk prev destination (prev.length + 1)).map List.reverse, u :: us, dist)
    else
      let dp := relaxList g (u :: us) current (g.neighbours current) dist prev
      dijkstraLoopT g destination fuel ((u :: us).erase current) dp.1 dp.2

/-- `dijkstra` with the working set and distances observable at return. -/
def dijkstraT (g : Graph) (source destination : ℕ) :
    Option (List ℕ) × List ℕ × List Dist :=
  let unvisited := g.nodes
  let distance := (List.replicate unvisited.length (⊤ : Dist)).set source 0
  let previous : List (Option ℕ) := List.replicate unvisited.length none
  dijkstraLoopT g destination unvisited.length unvisited distance previous

/-- Modelled from the spec: steps 4–5 of the shortest-path algorithm (§4.2) —
the full-relaxation loop does not early-exit: it selects the minimum node of
the working set, removes it, relaxes its neighbours still in the working set,
and repeats until the working set is empty. -/
def dijkstraRefLoop (g : Graph) :
    ℕ → List ℕ → List Dist → List (Option ℕ) → List Dist × List (Option ℕ)
  | _, [], dist, prev => (dist, prev)
  | 0, _ :: _, dist, prev => (dist, prev)
  | fuel + 1, u :: us, dist, prev =>
    let current := pickMin dist u us
    let rest := (u :: us).erase current
    let dp := relaxList g rest current (g.neighbours current) dist prev
    dijkstraRefLoop g fuel rest dp.1 dp.2

/-- Modelled from the spec: the full-relaxation reference Dijkstra — after
the working set empties, reconstruct the path by walking predecessors
backward from the destination and reversing. -/
def dijkstraRef (g : Graph) (source destination : ℕ) : Option (List ℕ) :=
  let unvisited := g.nodes
  let distance := (List.replicate unvisited.length (⊤ : Dist)).set source 0
  let previous : List (Option ℕ) := List.replicate unvisited.length none
  let dp := dijkstraRefLoop g unvisited.length unvisited distance previous
  (pathWalk dp.2 destination (dp.2.length + 1)).map List.reverse

/-- Predecessor pointers only ever point at nodes already removed from the
working set. -/
def PrevClosed (unv : List ℕ) (prev : List (Option ℕ)) : Prop :=
  ∀ v w, prev.getD v none = some w → w ∉ unv

theorem getD_set_self {α : Type} (l : List α) (i : ℕ) (a d : α) (h : i < l.length) :
    (l.set i a).getD i d = a := by
  rw [List.getD_eq_getElem?_getD, List.getElem?_set_self', List.getElem?_eq_getElem h]
  rfl

theorem getD_set_ne {α : Type} (l : List α) (i j : ℕ) (a d : α) (h : i ≠ j) :
    (l.set i a).getD j d = l.getD j d := by
  rw [List.getD_eq_getElem?_getD, List.getElem?_set_ne h, ← List.getD_eq_getElem?_getD]

theorem getD_replicate_self {α : Type} (n i : ℕ) (c : α) :
    (List.replicate n c).getD i c = c := by
  rcases lt_or_le i n with h | h
  · rw [List.getD_eq_getElem?_getD]
    simp [List.getElem?_replicate, h]
  · exact List.getD_eq_default _ _ (by simpa using h)

theorem getD_of_lt {α : Type} (l : List α) (i : ℕ) (d : α) (h : i < l.length) :
    l.getD i d = l[i] := by
  rw [List.getD_eq_getElem?_getD, List.getElem?_eq_getElem h]
  rfl

/-! ## pyIndex on range lists -/

theorem pyIndex_range' (v : ℕ) : ∀ (n a : ℕ),
    pyIndex (List.range' a n) v = if a ≤ v ∧ v < a + n then some (v - a) else none := by
  intro n
  induction n with
  | zero =>
    intro a
    rw [show List.range' a 0 = [] from rfl]
    rw [show pyIndex [] v = none from rfl]
    rw [if_neg (by omega)]
  | succ n ih =>
    intro a
    rw [show List.range' a (n + 1) = a :: List.range' (a + 1) n from rfl]
    rw [show pyIndex (a :: List.range' (a + 1) n) v
        = if a = v then some 0 else (pyIndex (List.range' (a + 1) n) v).map (· + 1) from rfl]
    by_cases hav : a = v
    · rw [if_pos hav, if_pos (by omega)]
      rw [show v - a = 0 from by omega]
    · rw [if_neg hav, ih (a + 1)]
      by_cases hv : a + 1 ≤ v ∧ v < a + 1 + n
      · rw [if_pos hv, if_pos (by omega)]
        simp only [Option.map_some']
        congr 1
        omega
      · rw [if_neg hv, if_neg (by omega)]
        rfl

theorem pyIndex_range (n v : ℕ) :
    pyIndex (List.range n) v = if v < n then some v else none := by
  rw [List.range_eq_range', pyIndex_range']
  simp

/-! ## foldMin and pickMin -/

theorem pairLT_asymm {a b : Dist × ℕ} (h : pairLT a b) : ¬ pairLT b a := by
  rcases h with h | ⟨he, hn⟩ <;> rintro (h2 | ⟨he2, hn2⟩)
  · exact absurd h2 (lt_asymm h)
  · rw [he2] at h; exact lt_irrefl _ h
  · rw [he] at h2; exact lt_irrefl _ h2
  · exact absurd hn2 (not_lt.mpr hn.le)

theorem foldMin_mem (a : Dist × ℕ) (l : List (Dist × ℕ)) : foldMin a l ∈ a :: l := by
  induction l generalizing a with
  | nil => simp [foldMin]
  | cons b r ih =>
    rw [foldMin]
    have h := ih (if pairLT b a then b else a)
    rcases List.mem_cons.mp h with h1 | h1
    · rw [h1]
      split <;> simp
    · simp [List.mem_cons.mpr (Or.inr (List.mem_cons.mpr (Or.inr h1)))]

theorem pairLT_irrefl (a : Dist × ℕ) : ¬ pairLT a a := by
  rintro (h | ⟨-, h⟩) <;> exact lt_irrefl _ h

theorem foldMin_eq_min (x : Dist × ℕ) : ∀ (l : List (Dist × ℕ)) (a : Dist × ℕ),
    x ∈ a :: l → (∀ y ∈ a :: l, y ≠ x → pairLT x y) → foldMin a l = x := by
  intro l
  induction l with
  | nil =>
    intro a hx _
    rw [foldMin]
    rcases List.mem_cons.mp hx with h | h
    · exact h.symm
    · exact absurd h (List.not_mem_nil x)
  | cons b r ih =>
    intro a hx hmin
    rw [foldMin]
    apply ih
    · by_cases hxr : x ∈ r
      · exact List.mem_cons.mpr (Or.inr hxr)
      rcases List.mem_cons.mp hx with hxa | hx1
      · subst hxa
        have hnbx : ¬ pairLT b x := by
          by_cases hbx : b = x
          · rw [hbx]; exact pairLT_irrefl x
          · exact pairLT_asymm (hmin b (by simp) hbx)
        rw [if_neg hnbx]
        exact List.mem_cons_self _ _
      rcases List.mem_cons.mp hx1 with hxb | hxr'
      · subst hxb
        by_cases hpa : pairLT x a
        · rw [if_pos hpa]
          exact List.mem_cons_self _ _
        · have hax : a = x := by
            by_contra hax
            exact hpa (hmin a (by simp) hax)
          rw [if_neg hpa, hax]
          exact List.mem_cons_self _ _
      · exact absurd hxr' hxr
    · intro y hy hne
      rcases List.mem_cons.mp hy with hyc | hyr
      · by_cases hba : pairLT b a
        · rw [if_pos hba] at hyc
          subst hyc
          exact hmin y (by simp) hne
        · rw [if_neg hba] at hyc
          subst hyc
          exact hmin y (by simp) hne
      · exact hmin y (by simp [hyr]) hne

theorem pickMin_mem (dist : List Dist) (u : ℕ) (us : List ℕ) : pickMin dist u us ∈ u :: us := by
  have h := foldMin_mem (dist.getD u ⊤, u) (us.map fun n => (dist.getD n ⊤, n))
  rcases List.mem_cons.mp h with h1 | h1
  · rw [pickMin, h1]
    exact List.mem_cons_self _ _
  · rcases List.mem_map.mp h1 with ⟨n, hn, he⟩
    rw [pickMin, ← he]
    exact List.mem_cons.mpr (Or.inr hn)

/-! ## API-reachable graph states and their structural invariant -/

theorem getD_append_none (row : List Cell) (j : ℕ) :
    (row ++ [none]).getD j none = row.getD j none := by
  rw [List.getD_eq_getElem?_getD, List.getD_eq_getElem?_getD, List.getElem?_append]
  split
  · rfl
  · rename_i hj
    rw [List.getElem?_eq_none (by omega : row.length ≤ j)]
    rcases hk : j - row.length with _ | k <;> simp [hk]

theorem getD_getD_set (m : List (List Cell)) (yi xi : ℕ) (c : Cell) (i j : ℕ) :
    ((m.set yi ((m.getD yi []).set xi c)).getD i []).getD j none
      = if i = yi ∧ j = xi ∧ yi < m.length ∧ xi < (m.getD yi []).length then c
        else (m.getD i []).getD j none := by
  by_cases hiy : i = yi
  · subst hiy
    by_cases hyl : i < m.length
    · rw [getD_set_self _ _ _ _ hyl]
      by_cases hjx : j = xi
      · subst hjx
        by_cases hxl : j < (m.getD i []).length
        · rw [getD_set_self _ _ _ _ hxl, if_pos ⟨rfl, rfl, hyl, hxl⟩]
        · rw [List.set_eq_of_length_le (by omega), if_neg (by tauto)]
      · rw [getD_set_ne _ _ _ _ _ (fun h => hjx h.symm), if_neg (by tauto)]
    · rw [List.set_eq_of_length_le (by omega), if_neg (by tauto)]
  · rw [getD_set_ne _ _ _ _ _ (fun h => hiy h.symm), if_neg (by tauto)]

theorem extendMatrix_nodes (g : Graph) : (g._extendMatrix).nodes = g.nodes := rfl

theorem extendMatrix_directed (g : Graph) : (g._extendMatrix).directed = g.directed := rfl

theorem extendMatrix_length (g : Graph) :
    (g._extendMatrix).matrix.length = g.matrix.length + 1 := by
  simp [Graph._extendMatrix]

theorem extendMatrix_rows {g : Graph} {k : ℕ}
    (hrows : ∀ row ∈ g.matrix, row.length = k) (hne : g.matrix ≠ []) :
    ∀ row ∈ (g._extendMatrix).matrix, row.length = k + 1 := by
  obtain ⟨r0, rs, hm⟩ := List.exists_cons_of_ne_nil hne
  have hr0 : r0.length = k := hrows r0 (by rw [hm]; exact List.mem_cons_self _ _)
  intro row hrow
  rw [Graph._extendMatrix] at hrow
  simp only [hm, List.map_cons, List.headD_cons, List.cons_append, List.mem_cons,
    List.mem_append, List.mem_map, List.mem_singleton, List.length_cons] at hrow
  rcases hrow with h | h | h | h
  · rw [h]
    simp [hr0]
  · obtain ⟨r, hr, hre⟩ := h
    rw [← hre]
    have : r.length = k := hrows r (by rw [hm]; exact List.mem_cons.mpr (Or.inr hr))
    simp [this]
  · rw [h]
    simp [hr0]
  · exact absurd h (List.not_mem_nil row)

theorem getD_append_left {α : Type} (l₁ l₂ : List α) (i : ℕ) (d : α) (h : i < l₁.length) :
    (l₁ ++ l₂).getD i d = l₁.getD i d := by
  rw [List.getD_eq_getElem?_getD, List.getD_eq_getElem?_getD, List.getElem?_append_left h]

theorem getD_append_right {α : Type} (l₁ l₂ : List α) (i : ℕ) (d : α) (h : l₁.length ≤ i) :
    (l₁ ++ l₂).getD i d = l₂.getD (i - l₁.length) d := by
  rw [List.getD_eq_getElem?_getD, List.getD_eq_getElem?_getD, List.getElem?_append_right h]

theorem getD_map_row (m : List (List Cell)) (f : List Cell → List Cell) (i : ℕ)
    (h : i < m.length) : (m.map f).getD i [] = f (m.getD i []) := by
  rw [List.getD_eq_getElem?_getD, List.getElem?_map, List.getElem?_eq_getElem h]
  rw [getD_of_lt _ _ _ h]
  rfl

theorem cellAt_extendMatrix (g : Graph) (i j : ℕ) :
    cellAt (g._extendMatrix) i j = cellAt g i j := by
  rw [cellAt, cellAt, Graph._extendMatrix]
  simp only
  rcases lt_or_le i g.matrix.length with hi | hi
  · rw [getD_append_left _ _ _ _ (by simpa using hi), getD_map_row _ _ _ hi, getD_append_none]
  · have hrhs : (g.matrix.getD i []).getD j none = none := by
      rw [List.getD_eq_default _ _ hi]
      rfl
    rw [hrhs, getD_append_right _ _ _ _ (by simpa using hi)]
    rcases hk : i - (List.map (fun row => row ++ [none]) g.matrix).length with _ | k
    · rw [show ∀ w, ([List.replicate w (none : Cell)]).getD 0 [] = List.replicate w none
          from fun w => rfl]
      exact getD_replicate_self _ _ _
    · rw [List.getD_eq_default _ _ (by simp)]

/-- Complete case analysis of `_addEdge`: it either fails leaving the state
untouched, or succeeds having looked both endpoints up, found the target cell
empty, stored the cost and appended the edge record. -/
theorem addEdgeRaw_cases (g : Graph) (s d : ℕ) (c : ℤ) :
    ((g._addEdge s d c).2 = g ∧ ∃ e, (g._addEdge s d c).1 = Except.error e) ∨
    (s ≠ d ∧ ∃ yi xi, pyIndex g.nodes s = some yi ∧ pyIndex g.nodes d = some xi ∧
      (cellAt g yi xi).isSome = false ∧
      (g._addEdge s d c).1 = Except.ok g.edges.length ∧
      (g._addEdge s d c).2 =
        { g with matrix := g.matrix.set yi ((g.matrix.getD yi []).set xi (some c)),
                 edges := g.edges ++ [(s, d, c)] }) := by
  rw [Graph._addEdge]
  by_cases hsd : s = d
  · rw [if_pos hsd]
    exact Or.inl ⟨rfl, _, rfl⟩
  rw [if_neg hsd]
  rcases hx : pyIndex g.nodes d with _ | xi <;> rcases hy : pyIndex g.nodes s with _ | yi <;>
    dsimp only
  · exact Or.inl ⟨rfl, _, rfl⟩
  · exact Or.inl ⟨rfl, _, rfl⟩
  · exact Or.inl ⟨rfl, _, rfl⟩
  · by_cases hcell : ((g.matrix.getD yi []).getD xi none).isSome = true
    · rw [if_pos hcell]
      exact Or.inl ⟨rfl, _, rfl⟩
    · rw [if_neg hcell]
      refine Or.inr ⟨hsd, yi, xi, rfl, rfl, ?_, rfl, rfl⟩
      rw [cellAt]
      exact Bool.eq_false_iff.mpr hcell

theorem addEdgeRaw_directed (g : Graph) (s d : ℕ) (c : ℤ) :
    (g._addEdge s d c).2.directed = g.directed := by
  rcases addEdgeRaw_cases g s d c with ⟨he, -⟩ | ⟨-, yi, xi, -, -, -, -, he⟩ <;> rw [he]

theorem addEdgeRaw_nodes (g : Graph) (s d : ℕ) (c : ℤ) :
    (g._addEdge s d c).2.nodes = g.nodes := by
  rcases addEdgeRaw_cases g s d c with ⟨he, -⟩ | ⟨-, yi, xi, -, -, -, -, he⟩ <;> rw [he]

theorem inv_addEdgeRaw {g : Graph} (hInv : Inv g) (s d : ℕ) (c : ℤ)
    (hdir : g.directed = false → s < d) : Inv ((g._addEdge s d c).2) := by
  rcases addEdgeRaw_cases g s d c with ⟨he, -⟩ | ⟨hsd, yi, xi, hs, hd, hcell, -, he⟩
  · rw [he]
    exact hInv
  · obtain ⟨hnodes, hzero, hsq, hcells⟩ := hInv
    rw [hnodes, pyIndex_range] at hs hd
    have hsn : s < g.ncount ∧ yi = s := by
      by_cases h : s < g.ncount
      · rw [if_pos h] at hs
        exact ⟨h, (Option.some_injective _ hs).symm⟩
      · rw [if_neg h] at hs
        exact absurd hs (by simp)
    have hdn : d < g.ncount ∧ xi = d := by
      by_cases h : d < g.ncount
      · rw [if_pos h] at hd
        exact ⟨h, (Option.some_injective _ hd).symm⟩
      · rw [if_neg h] at hd
        exact absurd hd (by simp)
    obtain ⟨hsn, hyis⟩ := hsn
    obtain ⟨hdn, hxid⟩ := hdn
    rw [hyis, hxid] at he hcell
    have hn1 : 1 ≤ g.ncount := by omega
    obtain ⟨hlen, hrows⟩ := hsq hn1
    rw [he]
    refine ⟨hnodes, ?_, ?_, ?_⟩
    · intro h0
      rw [show ({ g with
            matrix := g.matrix.set s ((g.matrix.getD s []).set d (some c)),
            edges := g.edges ++ [(s, d, c)] } : Graph).ncount = g.ncount from rfl] at h0
      omega
    · intro _
      refine ⟨by simpa using hlen, ?_⟩
      intro row hrow
      rcases List.mem_or_eq_of_mem_set hrow with h | h
      · exact hrows row h
      · rw [h, List.length_set]
        apply hrows
        rw [getD_of_lt g.matrix s [] (by omega)]
        exact List.getElem_mem _
    · intro i j hij
      rw [show cellAt { g with
            matrix := g.matrix.set s ((g.matrix.getD s []).set d (some c)),
            edges := g.edges ++ [(s, d, c)] } i j
          = ((g.matrix.set s ((g.matrix.getD s []).set d (some c))).getD i []).getD j none
          from rfl, getD_getD_set] at hij
      split at hij
      · rename_i hcond
        obtain ⟨hi, hj, -, -⟩ := hcond
        subst hi hj
        exact ⟨hsd, fun hf => hdir hf⟩
      · exact hcells i j hij

theorem inv_addNode {g : Graph} (hInv : Inv g) : Inv ((g.addNode).2) := by
  obtain ⟨hnodes, hzero, hsq, hcells⟩ := hInv
  rw [Graph.addNode]
  by_cases h0 : g.ncount = 0
  · rw [if_pos h0]
    have hn : g.nodes = [] := by
      rw [hnodes, h0]
      rfl
    have hm : g.matrix = [[none]] := hzero h0
    refine ⟨?_, ?_, ?_, ?_⟩
    · rw [show ({ g with nodes := g.nodes ++ [0] } : Graph).nodes = g.nodes ++ [0] from rfl,
        show ({ g with nodes := g.nodes ++ [0] } : Graph).ncount = (g.nodes ++ [0]).length
          from rfl, hn]
      rfl
    · intro hc
      rw [show ({ g with nodes := g.nodes ++ [0] } : Graph).ncount = (g.nodes ++ [0]).length
          from rfl, hn] at hc
      exact absurd hc (by simp)
    · intro _
      rw [show ({ g with nodes := g.nodes ++ [0] } : Graph).matrix = g.matrix from rfl,
        show ({ g with nodes := g.nodes ++ [0] } : Graph).ncount = (g.nodes ++ [0]).length
          from rfl, hn, hm]
      refine ⟨rfl, ?_⟩
      intro row hrow
      rcases List.mem_cons.mp hrow with h | h
      · rw [h]
        rfl
      · exact absurd h (List.not_mem_nil row)
    · intro i j hij
      exact hcells i j hij
  · rw [if_neg h0]
    have hn1 : 1 ≤ g.ncount := by omega
    obtain ⟨hlen, hrows⟩ := hsq hn1
    have hlast : g.nodes.getLastD 0 = g.ncount - 1 := by
      rw [hnodes, show g.ncount = (g.ncount - 1) + 1 from by omega, List.range_succ]
      simp
    have hmne : g.matrix ≠ [] := by
      intro hc
      rw [hc] at hlen
      simp at hlen
      omega
    refine ⟨?_, ?_, ?_, ?_⟩
    · rw [show (({ g._extendMatrix with
          nodes := (g._extendMatrix).nodes ++ [(g._extendMatrix).nodes.getLastD 0 + 1] } :
            Graph)).nodes
          = g.nodes ++ [g.nodes.getLastD 0 + 1] from rfl]
      rw [show (({ g._extendMatrix with
          nodes := (g._extendMatrix).nodes ++ [(g._extendMatrix).nodes.getLastD 0 + 1] } :
            Graph)).ncount
          = (g.nodes ++ [g.nodes.getLastD 0 + 1]).length from rfl]
      rw [hlast, hnodes]
      rw [show ((List.range g.ncount ++ [g.ncount - 1 + 1]).length) = g.ncount + 1 from by simp]
      rw [show g.ncount - 1 + 1 = g.ncount from by omega, ← List.range_succ]
    · intro hc
      rw [show (({ g._extendMatrix with
          nodes := (g._extendMatrix).nodes ++ [(g._extendMatrix).nodes.getLastD 0 + 1] } :
            Graph)).ncount
          = (g.nodes ++ [g.nodes.getLastD 0 + 1]).length from rfl] at hc
      exact absurd hc (by simp)
    · intro _
      rw [show (({ g._extendMatrix with
          nodes := (g._extendMatrix).nodes ++ [(g._extendMatrix).nodes.getLastD 0 + 1] } :
            Graph)).matrix = (g._extendMatrix).matrix from rfl]
      rw [show (({ g._extendMatrix with
          nodes := (g._extendMatrix).nodes ++ [(g._extendMatrix).nodes.getLastD 0 + 1] } :
            Graph)).ncount
          = (g.nodes ++ [g.nodes.getLastD 0 + 1]).length from rfl]
      rw [show ((g.nodes ++ [g.nodes.getLastD 0 + 1]).length) = g.ncount + 1 from by
        simp [Graph.ncount]]
      refine ⟨by rw [extendMatrix_length, hlen], ?_⟩
      exact extendMatrix_rows hrows hmne
    · intro i j hij
      rw [show cellAt ({ g._extendMatrix with
          nodes := (g._extendMatrix).nodes ++ [(g._extendMatrix).nodes.getLastD 0 + 1] } :
            Graph) i j
          = cellAt (g._extendMatrix) i j from rfl, cellAt_extendMatrix] at hij
      exact hcells i j hij

theorem inv_addEdge {g : Graph} (hInv : Inv g) (s d : ℕ) (c : ℤ) (dir : Bool) :
    Inv ((g.addEdge s d c dir).2) := by
  rw [Graph.addEdge]
  by_cases hsd : s = d
  · rw [if_pos hsd]
    exact hInv
  rw [if_neg hsd]
  by_cases hdir : dir = true
  · rw [if_pos hdir]
    by_cases hgd : g.directed = true
    · rw [show (!g.directed) = false from by rw [hgd]; rfl]
      rw [if_neg (by simp)]
      have h1 : Inv ((g._addEdge s d c).2) :=
        inv_addEdgeRaw hInv s d c (fun hf => absurd hf (by rw [hgd]; simp))
      rcases h : g._addEdge s d c with ⟨r, g'⟩
      rw [h] at h1
      cases r <;> dsimp only <;> exact h1
    · rw [show (!g.directed) = true from by
        rcases hb : g.directed
        · rfl
        · exact absurd hb hgd]
      rw [if_pos rfl]
      exact hInv
  · rw [if_neg hdir]
    by_cases hgd : g.directed = true
    · rw [if_pos hgd]
      have h1 : Inv ((g._addEdge s d c).2) :=
        inv_addEdgeRaw hInv s d c (fun hf => absurd hf (by rw [hgd]; simp))
      rcases h : g._addEdge s d c with ⟨r, g'⟩
      rw [h] at h1
      cases r with
      | error e => dsimp only; exact h1
      | ok i =>
        dsimp only
        have h2 : Inv ((g'._addEdge d s c).2) :=
          inv_addEdgeRaw h1 d s c (fun hf => by
            rw [show g'.directed = g.directed from by
              rw [show g' = (g._addEdge s d c).2 from by rw [h]]
              exact addEdgeRaw_directed g s d c] at hf
            exact absurd hgd (by rw [hf]; simp))
        rcases h3 : g'._addEdge d s c with ⟨r2, g''⟩
        rw [h3] at h2
        cases r2 <;> dsimp only <;> exact h2
    · rw [if_neg hgd]
      dsimp only
      have hgd' : g.directed = false := by
        rcases hb : g.directed
        · rfl
        · exact absurd hb hgd
      have h1 : Inv ((g._addEdge (min s d) (max s d) c).2) :=
        inv_addEdgeRaw hInv _ _ c (fun _ => min_lt_max.mpr hsd)
      rcases h : g._addEdge (min s d) (max s d) c with ⟨r, g'⟩
      rw [h] at h1
      cases r <;> dsimp only <;> exact h1

theorem cellAt_init (b : Bool) (i j : ℕ) : cellAt (Graph.init b) i j = none := by
  rcases i with _ | i <;> rcases j with _ | j <;> rfl

theorem inv_init (b : Bool) : Inv (Graph.init b) := by
  refine ⟨rfl, fun _ => rfl, ?_, ?_⟩
  · intro h
    exact absurd h (by simp [Graph.init, Graph.ncount])
  · intro i j hij
    rw [cellAt_init] at hij
    exact absurd hij (by simp)

/-- Every API-built graph satisfies the structural invariant. -/
theorem built_inv {g : Graph} (hb : Built g) : Inv g := by
  induction hb with
  | init directed => exact inv_init directed
  | addNode _ ih => exact inv_addNode ih
  | addEdge s d c dir _ ih => exact inv_addEdge ih s d c dir

theorem built_nodes {g : Graph} (hb : Built g) : g.nodes = List.range g.ncount :=
  (built_inv hb).1

theorem mem_nodes_iff {g : Graph} (hb : Built g) (v : ℕ) : v ∈ g.nodes ↔ v < g.ncount := by
  rw [built_nodes hb]
  exact List.mem_range

theorem built_nodup {g : Graph} (hb : Built g) : g.nodes.Nodup := by
  rw [built_nodes hb]
  exact List.nodup_range _

/-! ## Characterization of neighbours and edge -/

theorem getD_lt_length_of_ne_default {α : Type} {l : List α} {i : ℕ} {d : α}
    (h : l.getD i d ≠ d) : i < l.length := by
  by_contra hc
  exact h (List.getD_eq_default _ _ (by omega))

theorem nodes_getD {g : Graph} (hInv : Inv g) {i : ℕ} (hi : i < g.ncount) :
    g.nodes.getD i 0 = i := by
  rw [hInv.1, getD_of_lt _ _ _ (by simpa using hi)]
  simp

theorem row_length {g : Graph} (hInv : Inv g) {n : ℕ} (hn : n < g.ncount) :
    (g.matrix.getD n []).length = g.ncount := by
  obtain ⟨hlen, hrows⟩ := hInv.2.2.1 (by omega)
  apply hrows
  rw [getD_of_lt _ _ _ (by omega)]
  exact List.getElem_mem _

theorem mem_neighbours_cells {g : Graph} (hInv : Inv g) {n m : ℕ} (hn : n < g.ncount) :
    m ∈ g.neighbours n ↔
      (cellAt g n m).isSome ∨ (g.directed = false ∧ m < n ∧ (cellAt g m n).isSome) := by
  have hrl := row_length hInv hn
  rw [Graph.neighbours]
  simp only [List.mem_append]
  constructor
  · rintro (h | h)
    · obtain ⟨i, hi, hv⟩ := List.mem_filterMap.mp h
      rw [List.mem_range, hrl] at hi
      by_cases hc : ((g.matrix.getD n []).getD i none).isSome
      · rw [if_pos hc] at hv
        have him : m = i := by
          rw [← Option.some_injective _ hv, nodes_getD hInv hi]
        subst him
        exact Or.inl hc
      · rw [if_neg hc] at hv
        exact absurd hv (by simp)
    · split at h
      · rename_i hdir
        obtain ⟨i, hi, hv⟩ := List.mem_filterMap.mp h
        rw [List.mem_range] at hi
        by_cases hc : ((g.matrix.getD i []).getD n none).isSome
        · rw [if_pos hc] at hv
          have him : m = i := by
            rw [← Option.some_injective _ hv, nodes_getD hInv (by omega)]
          subst him
          exact Or.inr ⟨by simpa using hdir, hi, hc⟩
        · rw [if_neg hc] at hv
          exact absurd hv (by simp)
      · exact absurd h (List.not_mem_nil m)
  · rintro (h | ⟨hdir, hmn, h⟩)
    · left
      apply List.mem_filterMap.mpr
      have hmlt : m < (g.matrix.getD n []).length := by
        apply getD_lt_length_of_ne_default
        intro hc
        rw [cellAt, hc] at h
        exact absurd h (by simp)
      refine ⟨m, List.mem_range.mpr hmlt, ?_⟩
      rw [cellAt] at h
      rw [if_pos h, nodes_getD hInv (by omega)]
    · right
      rw [show (!g.directed) = true from by rw [hdir]; rfl, if_pos rfl]
      apply List.mem_filterMap.mpr
      refine ⟨m, List.mem_range.mpr hmn, ?_⟩
      rw [cellAt] at h
      rw [if_pos h, nodes_getD hInv (by omega)]

theorem cellAt_lower_eq_none {g : Graph} (hInv : Inv g) (hdir : g.directed = false)
    {i j : ℕ} (hij : j ≤ i) : cellAt g i j = none := by
  by_cases hc : (cellAt g i j).isSome
  · obtain ⟨hne, hlt⟩ := hInv.2.2.2 i j hc
    have := hlt hdir
    omega
  · exact Option.not_isSome_iff_eq_none.mp hc

theorem cellAt_diag_eq_none {g : Graph} (hInv : Inv g) (i : ℕ) : cellAt g i i = none := by
  by_cases hc : (cellAt g i i).isSome
  · exact absurd rfl (hInv.2.2.2 i i hc).1
  · exact Option.not_isSome_iff_eq_none.mp hc

/-- On an undirected graph, `edge` reads the canonical `(min, max)` cell and
falls back to the mirror cell. -/
theorem edge_eq_undirected {g : Graph} (hdir : g.directed = false) (n m : ℕ) :
    g.edge n m = (match (g.matrix.getD (min n m) []).getD (max n m) none with
      | some c => some c
      | none => (g.matrix.getD (max n m) []).getD (min n m) none) := by
  rw [Graph.edge, hdir]
  simp

/-- On a directed graph, `edge` reads exactly the `(source, destination)` cell. -/
theorem edge_eq_directed {g : Graph} (hdir : g.directed = true) (n m : ℕ) :
    g.edge n m = (g.matrix.getD n []).getD m none := by
  rw [Graph.edge, hdir]
  rw [if_neg (show ¬ (true = false) from by simp),
    if_neg (show ¬ (true = false) from by simp)]
  rcases hc : (g.matrix.getD n []).getD m none with _ | c
  · dsimp only
    rw [if_neg (show ¬ (true = false) from by simp)]
  · rfl

/-- The cost lookup `graph.edge` finds exactly the cells that `neighbours`
scans: for an API-built graph, `m` is listed as a neighbour of `n` precisely
when `graph.edge(n, m)` returns a stored cost. -/
theorem mem_neighbours_iff_edge {g : Graph} (hInv : Inv g) {n m : ℕ} (hn : n < g.ncount) :
    m ∈ g.neighbours n ↔ (g.edge n m).isSome := by
  rw [mem_neighbours_cells hInv hn]
  rcases hb : g.directed with _ | _
  · rw [edge_eq_undirected hb]
    constructor
    · rintro (h | ⟨-, hmn, h⟩)
      · have hlt : n < m := (hInv.2.2.2 n m h).2 hb
        rw [show min n m = n from by omega, show max n m = m from by omega]
        rw [cellAt] at h
        obtain ⟨c, hc⟩ := Option.isSome_iff_exists.mp h
        rw [hc]
        rfl
      · rw [show min n m = m from by omega, show max n m = n from by omega]
        rw [cellAt] at h
        obtain ⟨c, hc⟩ := Option.isSome_iff_exists.mp h
        rw [hc]
        rfl
    · intro h
      rcases hcell : (g.matrix.getD (min n m) []).getD (max n m) none with _ | c
      · rw [hcell] at h
        have h2 : cellAt g (max n m) (min n m) = none :=
          cellAt_lower_eq_none hInv hb (by omega)
        rw [cellAt] at h2
        rw [h2] at h
        exact absurd h (by simp)
      · have hsome : (cellAt g (min n m) (max n m)).isSome := by
          rw [cellAt, hcell]
          rfl
        have hlt : min n m < max n m := (hInv.2.2.2 _ _ hsome).2 hb
        rcases lt_trichotomy n m with ho | ho | ho
        · left
          rw [show min n m = n from by omega, show max n m = m from by omega] at hsome
          exact hsome
        · omega
        · right
          rw [show min n m = m from by omega, show max n m = n from by omega] at hsome
          exact ⟨rfl, by omega, hsome⟩
  · rw [edge_eq_directed hb]
    constructor
    · rintro (h | ⟨hdir, -, -⟩)
      · rw [cellAt] at h
        exact h
      · exact absurd hdir (by simp)
    · intro h
      left
      rw [cellAt]
      exact h

theorem edge_isSome_of_mem_neighbours {g : Graph} (hInv : Inv g) {n m : ℕ}
    (hn : n < g.ncount) (hm : m ∈ g.neighbours n) : (g.edge n m).isSome :=
  (mem_neighbours_iff_edge hInv hn).mp hm

theorem neighbours_not_self {g : Graph} (hInv : Inv g) {n : ℕ} (hn : n < g.ncount) :
    n ∉ g.neighbours n := by
  intro hc
  rcases (mem_neighbours_cells hInv hn).mp hc with h | ⟨-, h, -⟩
  · rw [cellAt_diag_eq_none hInv] at h
    exact absurd h (by simp)
  · omega



/-! ## The spec's description of neighbours, and reachability -/

theorem filterMap_if_eq_map_filter {α : Type} (p : ℕ → Bool) (f : ℕ → α) (l : List ℕ) :
    l.filterMap (fun i => if p i then some (f i) else none) = (l.filter p).map f := by
  induction l with
  | nil => rfl
  | cons a r ih => by_cases h : p a <;> simp [List.filter_cons, List.filterMap_cons, h, ih]

theorem map_nodes_getD_id {g : Graph} (hInv : Inv g) :
    ∀ (l : List ℕ), (∀ i ∈ l, i < g.ncount) → l.map (fun i => g.nodes.getD i 0) = l := by
  intro l hl
  induction l with
  | nil => rfl
  | cons a r ih =>
    rw [List.map_cons, nodes_getD hInv (hl a (List.mem_cons_self _ _)),
      ih (fun i hi => hl i (List.mem_cons.mpr (Or.inr hi)))]

theorem neighbours_eq_spec {g : Graph} (hInv : Inv g) {n : ℕ} (hn : n < g.ncount) :
    g.neighbours n = specNeighbours g n := by
  have hrl := row_length hInv hn
  rw [Graph.neighbours, specNeighbours]
  congr 1
  · rw [hrl, filterMap_if_eq_map_filter
      (fun i => ((g.matrix.getD n []).getD i none).isSome) (fun i => g.nodes.getD i 0)]
    rw [map_nodes_getD_id hInv _ (fun i hi => by
      have := (List.mem_filter.mp hi).1
      rw [List.mem_range] at this
      omega)]
    rfl
  · rcases hb : g.directed with _ | _
    · rw [show (!false) = true from rfl, if_pos rfl, if_pos rfl]
      rw [filterMap_if_eq_map_filter
        (fun i => ((g.matrix.getD i []).getD n none).isSome) (fun i => g.nodes.getD i 0)]
      rw [map_nodes_getD_id hInv _ (fun i hi => by
        have := (List.mem_filter.mp hi).1
        rw [List.mem_range] at this
        omega)]
      rfl
    · rw [show (!true) = false from rfl, if_neg (by simp), if_neg (by simp)]

/-! ## Behaviour of the relaxation step -/

theorem relaxList_length (g : Graph) (unv : List ℕ) (cur : ℕ) :
    ∀ (ns : List ℕ) (dist : List Dist) (prev : List (Option ℕ)),
      (relaxList g unv cur ns dist prev).1.length = dist.length ∧
      (relaxList g unv cur ns dist prev).2.length = prev.length := by
  intro ns
  induction ns with
  | nil =>
    intro dist prev
    exact ⟨rfl, rfl⟩
  | cons m rest ih =>
    intro dist prev
    rw [relaxList]
    by_cases hm : m ∈ unv
    · rw [if_pos hm]
      rcases he : g.edge cur m with _ | c
      · exact ih dist prev
      · dsimp only
        by_cases hlt : dist.getD cur ⊤ + (c : Dist) < dist.getD m ⊤
        · rw [if_pos hlt]
          have h := ih (dist.set m (dist.getD cur ⊤ + (c : Dist))) (prev.set m (some cur))
          rw [List.length_set, List.length_set] at h
          exact h
        · rw [if_neg hlt]
          exact ih dist prev
    · rw [if_neg hm]
      exact ih dist prev

theorem relaxList_not_mem (g : Graph) (unv : List ℕ) (cur : ℕ) {v : ℕ} (hv : v ∉ unv) :
    ∀ (ns : List ℕ) (dist : List Dist) (prev : List (Option ℕ)),
      (relaxList g unv cur ns dist prev).1.getD v ⊤ = dist.getD v ⊤ ∧
      (relaxList g unv cur ns dist prev).2.getD v none = prev.getD v none := by
  intro ns
  induction ns with
  | nil =>
    intro dist prev
    exact ⟨rfl, rfl⟩
  | cons m rest ih =>
    intro dist prev
    rw [relaxList]
    by_cases hm : m ∈ unv
    · rw [if_pos hm]
      rcases he : g.edge cur m with _ | c
      · exact ih dist prev
      · dsimp only
        by_cases hlt : dist.getD cur ⊤ + (c : Dist) < dist.getD m ⊤
        · rw [if_pos hlt]
          have hne : m ≠ v := fun h => hv (h ▸ hm)
          have h := ih (dist.set m (dist.getD cur ⊤ + (c : Dist))) (prev.set m (some cur))
          rw [getD_set_ne _ _ _ _ _ hne, getD_set_ne _ _ _ _ _ hne] at h
          exact h
        · rw [if_neg hlt]
          exact ih dist prev
    · rw [if_neg hm]
      exact ih dist prev

theorem relaxList_prev_cases (g : Graph) (unv : List ℕ) (cur : ℕ) :
    ∀ (ns : List ℕ) (dist : List Dist) (prev : List (Option ℕ)) (v : ℕ),
      (relaxList g unv cur ns dist prev).2.getD v none = prev.getD v none ∨
      (relaxList g unv cur ns dist prev).2.getD v none = some cur := by
  intro ns
  induction ns with
  | nil =>
    intro dist prev v
    exact Or.inl rfl
  | cons m rest ih =>
    intro dist prev v
    rw [relaxList]
    by_cases hm : m ∈ unv
    · rw [if_pos hm]
      rcases he : g.edge cur m with _ | c
      · exact ih dist prev v
      · dsimp only
        by_cases hlt : dist.getD cur ⊤ + (c : Dist) < dist.getD m ⊤
        · rw [if_pos hlt]
          rcases ih (dist.set m (dist.getD cur ⊤ + (c : Dist))) (prev.set m (some cur)) v
            with h | h
          · rw [h]
            by_cases hvm : m = v
            · subst hvm
              by_cases hml : m < prev.length
              · rw [getD_set_self _ _ _ _ hml]
                exact Or.inr rfl
              · rw [List.set_eq_of_length_le (by omega)]
                exact Or.inl rfl
            · rw [getD_set_ne _ _ _ _ _ hvm]
              exact Or.inl rfl
          · exact Or.inr h
        · rw [if_neg hlt]
          exact ih dist prev v
    · rw [if_neg hm]
      exact ih dist prev v

theorem relaxList_congr_unv (g : Graph) {unvA unvB : List ℕ} (cur : ℕ) :
    ∀ (ns : List ℕ), (∀ m ∈ ns, (m ∈ unvA ↔ m ∈ unvB)) →
      ∀ (dist : List Dist) (prev : List (Option ℕ)),
        relaxList g unvA cur ns dist prev = relaxList g unvB cur ns dist prev := by
  intro ns
  induction ns with
  | nil =>
    intro _ dist prev
    rfl
  | cons m rest ih =>
    intro h dist prev
    have hrest : ∀ x ∈ rest, (x ∈ unvA ↔ x ∈ unvB) :=
      fun x hx => h x (List.mem_cons.mpr (Or.inr hx))
    rw [relaxList, relaxList]
    by_cases hm : m ∈ unvA
    · rw [if_pos hm, if_pos ((h m (List.mem_cons_self _ _)).mp hm)]
      rcases he : g.edge cur m with _ | c
      · exact ih hrest dist prev
      · dsimp only
        by_cases hlt : dist.getD cur ⊤ + (c : Dist) < dist.getD m ⊤
        · rw [if_pos hlt, if_pos hlt]
          exact ih hrest _ _
        · rw [if_neg hlt, if_neg hlt]
          exact ih hrest dist prev
    · rw [if_neg hm, if_neg (fun hc => hm ((h m (List.mem_cons_self _ _)).mpr hc))]
      exact ih hrest dist prev

/-! ## The search never touches unreachable nodes -/

theorem relaxList_unreachClean {g : Graph} {s : ℕ} (unv : List ℕ) (cur : ℕ) :
    ∀ (ns : List ℕ), (∀ m ∈ ns, adjStep g cur m) →
      ∀ (dist : List Dist) (prev : List (Option ℕ)), UnreachClean g s dist prev →
        UnreachClean g s (relaxList g unv cur ns dist prev).1
          (relaxList g unv cur ns dist prev).2 := by
  intro ns
  induction ns with
  | nil =>
    intro _ dist prev hclean
    exact hclean
  | cons m rest ih =>
    intro hns dist prev hclean
    have hrest : ∀ x ∈ rest, adjStep g cur x :=
      fun x hx => hns x (List.mem_cons.mpr (Or.inr hx))
    rw [relaxList]
    by_cases hm : m ∈ unv
    · rw [if_pos hm]
      rcases he : g.edge cur m with _ | c
      · exact ih hrest dist prev hclean
      · dsimp only
        by_cases hlt : dist.getD cur ⊤ + (c : Dist) < dist.getD m ⊤
        · rw [if_pos hlt]
          apply ih hrest
          intro v hv
          have hvm : v ≠ m := by
            intro hc
            subst hc
            by_cases hrc : reach g s cur
            · exact hv (Relation.ReflTransGen.tail hrc (hns v (List.mem_cons_self _ _)))
            · have hcur : dist.getD cur ⊤ = ⊤ := (hclean cur hrc).1
              rw [hcur, WithTop.top_add] at hlt
              exact absurd hlt not_top_lt
          rw [getD_set_ne _ _ _ _ _ (fun h => hvm h.symm),
            getD_set_ne _ _ _ _ _ (fun h => hvm h.symm)]
          exact hclean v hv
        · rw [if_neg hlt]
          exact ih hrest dist prev hclean
    · rw [if_neg hm]
      exact ih hrest dist prev hclean

/-- If the destination is unreachable, the loop eventually selects it with no
predecessor recorded and returns the one-element walk `[destination]`. -/
theorem dijkstraLoop_unreach {g : Graph} {s dest : ℕ} (hur : ¬ reach g s dest) :
    ∀ (fuel : ℕ) (unv : List ℕ) (dist : List Dist) (prev : List (Option ℕ)),
      unv.length ≤ fuel → dest ∈ unv → UnreachClean g s dist prev →
      dijkstraLoop g dest fuel unv dist prev = some [dest] := by
  intro fuel
  induction fuel with
  | zero =>
    intro unv dist prev hf hdest _
    rcases unv with _ | ⟨u, us⟩
    · exact absurd hdest (List.not_mem_nil dest)
    · rw [List.length_cons] at hf
      omega
  | succ fuel ih =>
    intro unv dist prev hf hdest hclean
    rcases unv with _ | ⟨u, us⟩
    · exact absurd hdest (List.not_mem_nil dest)
    rw [dijkstraLoop]
    dsimp only
    by_cases hcd : pickMin dist u us = dest
    · rw [if_pos hcd]
      have hprev : prev.getD dest none = none := (hclean dest hur).2
      rw [show pathWalk prev dest (prev.length + 1) = some [dest] from by
        rw [pathWalk, hprev]]
      rfl
    · rw [if_neg hcd]
      apply ih
      · have hmem := pickMin_mem dist u us
        rw [List.length_erase_of_mem hmem]
        rw [List.length_cons] at hf ⊢
        omega
      · exact (List.mem_erase_of_ne (fun h => hcd h.symm)).mpr hdest
      · exact relaxList_unreachClean _ _ _ (fun m hm => hm) dist prev hclean

/-- If the destination id is not a node at all, the loop drains the whole
working set and falls through: no value is returned. -/
theorem dijkstraLoop_invalid_dest {g : Graph} {dest : ℕ} (hdest : dest ∉ g.nodes) :
    ∀ (fuel : ℕ) (unv : List ℕ) (dist : List Dist) (prev : List (Option ℕ)),
      (∀ m ∈ unv, m ∈ g.nodes) →
      dijkstraLoop g dest fuel unv dist prev = none := by
  intro fuel
  induction fuel with
  | zero =>
    intro unv dist prev _
    rcases unv with _ | ⟨u, us⟩ <;> rw [dijkstraLoop]
  | succ fuel ih =>
    intro unv dist prev hsub
    rcases unv with _ | ⟨u, us⟩
    · rw [dijkstraLoop]
    rw [dijkstraLoop]
    dsimp only
    have hcur : pickMin dist u us ∈ g.nodes := hsub _ (pickMin_mem dist u us)
    rw [if_neg (show ¬ pickMin dist u us = dest from fun h => hdest (by
      rw [← h]
      exact hcur))]
    apply ih
    intro m hm
    exact hsub m ((List.erase_sublist _ _).mem hm)

/-- At start, the source is the unique minimum pair: distance 0 against ⊤. -/
theorem pickMin_start (len n : ℕ) (hn : n < len) (u : ℕ) (us : List ℕ)
    (hmem : n ∈ u :: us) :
    pickMin ((List.replicate len (⊤ : Dist)).set n 0) u us = n := by
  have hgn : ((List.replicate len (⊤ : Dist)).set n 0).getD n ⊤ = 0 :=
    getD_set_self _ _ _ _ (by simpa using hn)
  have hgm : ∀ m, m ≠ n → ((List.replicate len (⊤ : Dist)).set n 0).getD m ⊤ = ⊤ := by
    intro m hm
    rw [getD_set_ne _ _ _ _ _ (fun h => hm h.symm), getD_replicate_self]
  rw [pickMin]
  have hpair : ∀ m ∈ u :: us,
      ((((List.replicate len (⊤ : Dist)).set n 0).getD m ⊤, m) : Dist × ℕ)
        = if m = n then ((0 : Dist), n) else ((⊤ : Dist), m) := by
    intro m _
    by_cases hm : m = n
    · subst hm
      rw [if_pos rfl, hgn]
    · rw [if_neg hm, hgm m hm]
  have hfold := foldMin_eq_min ((0 : Dist), n)
    (us.map fun m => (((List.replicate len (⊤ : Dist)).set n 0).getD m ⊤, m))
    ((((List.replicate len (⊤ : Dist)).set n 0).getD u ⊤, u))
    (by
      rcases List.mem_cons.mp hmem with h | h
      · subst h
        rw [show ((((List.replicate len (⊤ : Dist)).set n 0).getD n ⊤, n) : Dist × ℕ)
            = ((0 : Dist), n) from by rw [hgn]]
        exact List.mem_cons_self _ _
      · apply List.mem_cons.mpr
        right
        apply List.mem_map.mpr
        exact ⟨n, h, by rw [hgn]⟩)
    (by
      intro y hy hne
      have hy2 : ∃ m ∈ u :: us,
          y = (((List.replicate len (⊤ : Dist)).set n 0).getD m ⊤, m) := by
        rcases List.mem_cons.mp hy with h | h
        · exact ⟨u, List.mem_cons_self _ _, h⟩
        · obtain ⟨m, hm, he⟩ := List.mem_map.mp h
          exact ⟨m, List.mem_cons.mpr (Or.inr hm), he.symm⟩
      obtain ⟨m, hm, hym⟩ := hy2
      by_cases hmn : m = n
      · exfalso
        rw [hpair m hm, if_pos hmn] at hym
        exact hne hym
      · rw [hym, hpair m hm, if_neg hmn]
        exact Or.inl (by
          rw [show ((0 : Dist), n).1 = ((0 : ℤ) : Dist) from rfl]
          exact WithTop.coe_lt_top 0))
  rw [hfold]

/-! ## Concrete graphs are API-built -/

theorem built_addNodes {g : Graph} (hb : Built g) : ∀ n, Built (addNodes g n) := by
  intro n
  induction n generalizing g with
  | zero => exact hb
  | succ n ih => exact ih (Built.addNode hb)

theorem built_addEdges {g : Graph} (hb : Built g) : ∀ es, Built (addEdges g es) := by
  intro es
  induction es generalizing g with
  | nil => exact hb
  | cons e r ih =>
    obtain ⟨s, d, c⟩ := e
    exact ih (Built.addEdge s d c false hb)

theorem built_g10 : Built g10 := built_addEdges (built_addNodes (Built.init false) 10) _

theorem built_g2 : Built g2 := built_addNodes (Built.init false) 2

theorem built_g1 : Built g1 := built_addNodes (Built.init false) 1

theorem built_g2d : Built g2d := Built.addEdge 0 1 5 true (built_addNodes (Built.init true) 2)

theorem built_g2e : Built g2e := Built.addEdge 0 1 3 false built_g2

/-! ## Top-level behaviour of dijkstra -/

/-- An unreachable destination yields the one-element path `[destination]`:
its predecessor is never recorded, so the reconstruction walk stops at once. -/
theorem dijkstra_unreach_eq {g : Graph} {s d : ℕ}
    (hd : d ∈ g.nodes) (hur : ¬ reach g s d) : dijkstra g s d = some [d] := by
  rw [dijkstra]
  apply dijkstraLoop_unreach hur
  · exact le_refl _
  · exact hd
  · intro m hm
    refine ⟨?_, getD_replicate_self _ _ _⟩
    by_cases hms : m = s
    · subst hms
      exact absurd Relation.ReflTransGen.refl hm
    · rw [getD_set_ne _ _ _ _ _ (fun h => hms h.symm), getD_replicate_self]

/-- When source and destination coincide, the very first selected node is the
destination and the search returns `[n]` immediately. -/
theorem dijkstra_self_eq {g : Graph} (hb : Built g) {n : ℕ} (hn : n ∈ g.nodes) :
    dijkstra g n n = some [n] := by
  have hlt : n < g.ncount := (mem_nodes_iff hb n).mp hn
  rw [dijkstra]
  rcases hus : g.nodes with _ | ⟨u, us⟩
  · rw [hus] at hn
    exact absurd hn (List.not_mem_nil n)
  rw [hus] at hn
  have hlen : n < us.length + 1 := by
    rw [Graph.ncount, hus, List.length_cons] at hlt
    exact hlt
  rw [List.length_cons, dijkstraLoop]
  dsimp only
  rw [pickMin_start (us.length + 1) n hlen u us hn, if_pos rfl]
  rw [show pathWalk (List.replicate (us.length + 1) (none : Option ℕ)) n
      ((List.replicate (us.length + 1) (none : Option ℕ)).length + 1) = some [n] from by
    rw [pathWalk, getD_replicate_self]]
  rfl

/-- A destination id that is not a node is never selected: the loop drains and
the function falls off the end, returning Python `None`. -/
theorem dijkstra_invalid_dest_eq {g : Graph} {s d : ℕ} (hd : d ∉ g.nodes) :
    dijkstra g s d = none := by
  rw [dijkstra]
  exact dijkstraLoop_invalid_dest hd _ _ _ _ (fun m hm => hm)

/-! ## Claim theorems -/

theorem not_reach_g2 : ¬ reach g2 0 1 := by
  intro h
  rcases Relation.ReflTransGen.cases_head h with h1 | ⟨c, hc, -⟩
  · exact absurd h1 (by decide)
  · have hc' : c ∈ g2.neighbours 0 := hc
    rw [show g2.neighbours 0 = [] from by decide] at hc'
    exact absurd hc' (List.not_mem_nil c)

/-- C1 counterexample: in the two-component graph `g2`, node 1 is unreachable
from node 0, yet `dijkstra` returns the one-element sequence `[1]`, not the
empty sequence the claim demands. -/
theorem dijkstra_unreachable_counterexample :
    dijkstra g2 0 1 = some [1] ∧ dijkstra g2 0 1 ≠ some [] := by
  constructor <;> decide

/-- C1 (amended): if the destination is unreachable from the source and
distinct from it, `dijkstra` returns the single-element sequence
`[destination]` (the walk stops at once since no predecessor was recorded);
when destination = source it returns `[source]`. -/
theorem dijkstra_unreachable_path (g : Graph) (hb : Built g) (s d : ℕ)
    (hs : s ∈ g.nodes) (hd : d ∈ g.nodes) :
    (¬ reach g s d → d ≠ s → dijkstra g s d = some [d]) ∧
    (d = s → dijkstra g s d = some [s]) := by
  constructor
  · intro hur _
    exact dijkstra_unreach_eq hd hur
  · intro h
    subst h
    exact dijkstra_self_eq hb hd

theorem dijkstra_unreachable_path_witness : dijkstra g2 0 1 = some [1] :=
  (dijkstra_unreachable_path g2 built_g2 0 1 (by decide) (by decide)).1
    not_reach_g2 (by decide)

/-- C2 counterexample: on the directed graph `g2d` (which carries only the
edge 0 → 1), the undirected-style call `addEdge(1, 0, 7, directional=False)`
inserts the record 1 → 0, then fails with `EdgeAlreadyExists` on the mirror
insertion — leaving the graph changed. -/
theorem addEdge_partial_mutation_counterexample :
    (g2d.addEdge 1 0 7 false).1 = Except.error (GraphError.alreadyPopulated 0 1 7) ∧
    (g2d.addEdge 1 0 7 false).2 ≠ g2d := by
  constructor <;> decide

theorem addEdgeRaw_error_unchanged {g : Graph} {s d : ℕ} {c : ℤ} {e : GraphError}
    (h : (g._addEdge s d c).1 = Except.error e) : (g._addEdge s d c).2 = g := by
  rcases addEdgeRaw_cases g s d c with ⟨he, -⟩ | ⟨-, yi, xi, -, -, -, hok, -⟩
  · exact he
  · rw [hok] at h
    exact absurd h (by simp)

/-- C2 (amended): a failing `addEdge` leaves the graph unchanged whenever the
call was directional, or the graph is undirected, or the first internal
insertion itself failed; the remaining case — an undirected-style call on a
directed graph whose first insertion succeeds and whose mirror insertion
fails — leaves the first inserted record behind. -/
theorem addEdge_error_unchanged (g : Graph) (s d : ℕ) (c : ℤ) (dir : Bool) (e : GraphError)
    (herr : (g.addEdge s d c dir).1 = Except.error e)
    (hnc : dir = true ∨ g.directed = false ∨ ∀ i, (g._addEdge s d c).1 ≠ Except.ok i) :
    (g.addEdge s d c dir).2 = g := by
  rw [Graph.addEdge] at herr ⊢
  by_cases hsd : s = d
  · rw [if_pos hsd]
  rw [if_neg hsd] at herr ⊢
  by_cases hdir : dir = true
  · rw [hdir] at herr ⊢
    rw [if_pos rfl] at herr ⊢
    by_cases hgd : g.directed = true
    · rw [show (!g.directed) = false from by rw [hgd]; rfl] at herr ⊢
      rw [if_neg (by simp)] at herr ⊢
      rcases h1 : g._addEdge s d c with ⟨r, g'⟩
      rw [h1] at herr
      cases r with
      | ok i =>
        exact Except.noConfusion (show Except.ok (EdgeIds.one i) = Except.error e from herr)
      | error e2 =>
        dsimp only
        have h2 := @addEdgeRaw_error_unchanged g _ _ c e2 (by rw [h1])
        rw [h1] at h2
        exact h2
    · rw [show (!g.directed) = true from by
        rcases hgdd : g.directed
        · rfl
        · exact absurd hgdd hgd] at herr ⊢
      rw [if_pos rfl]
  · have hdf : dir = false := by
      rcases hdd : dir
      · rfl
      · exact absurd hdd hdir
    rw [hdf] at herr ⊢
    rw [if_neg (by simp)] at herr ⊢
    by_cases hgd : g.directed = true
    · rw [if_pos hgd] at herr ⊢
      have hfst : ∀ i, (g._addEdge s d c).1 ≠ Except.ok i := by
        rcases hnc with h | h | h
        · rw [hdf] at h
          exact absurd h (by simp)
        · rw [h] at hgd
          exact absurd hgd (by simp)
        · exact h
      rcases h1 : g._addEdge s d c with ⟨r, g'⟩
      cases r with
      | ok i =>
        exfalso
        exact hfst i (by rw [h1])
      | error e2 =>
        dsimp only
        have h2 := @addEdgeRaw_error_unchanged g _ _ c e2 (by rw [h1])
        rw [h1] at h2
        exact h2
    · have hgdf : g.directed = false := by
        rcases hq : g.directed
        · rfl
        · exact absurd hq hgd
      have herr2 : (match g._addEdge (min s d) (max s d) c with
          | (Except.ok i, g') => (Except.ok (EdgeIds.one i), g')
          | (Except.error e, g') => (Except.error e, g')).1 = Except.error e := by
        rw [hgdf] at herr
        exact herr
      rw [hgdf]
      show (match g._addEdge (min s d) (max s d) c with
          | (Except.ok i, g') => (Except.ok (EdgeIds.one i), g')
          | (Except.error e, g') => (Except.error e, g')).2 = g
      rcases h1 : g._addEdge (min s d) (max s d) c with ⟨r, g'⟩
      rw [h1] at herr2
      cases r with
      | ok i =>
        exact Except.noConfusion (show Except.ok (EdgeIds.one i) = Except.error e from herr2)
      | error e2 =>
        dsimp only
        have h2 := @addEdgeRaw_error_unchanged g (min s d) (max s d) c e2 (by rw [h1])
        rw [h1] at h2
        exact h2

theorem addEdge_error_unchanged_witness : (g2e.addEdge 0 1 9 false).2 = g2e :=
  addEdge_error_unchanged g2e 0 1 9 false (GraphError.alreadyPopulated 0 1 9)
    (by decide) (Or.inr (Or.inl (by decide)))

/-- C4 counterexample: on the one-node undirected graph, the self-loop check
precedes the directedness check, so `addEdge(0, 0, 5, directional=True)`
fails with `InvalidArgument`, not `NotDirected`. -/
theorem addEdge_directional_self_loop_counterexample :
    (g1.addEdge 0 0 5 true).1 = Except.error GraphError.illegalArgument ∧
    (g1.addEdge 0 0 5 true).1 ≠ Except.error GraphError.nonDirected := by
  constructor <;> decide

/-- C4 (amended): a `directional=True` request on an undirected graph fails
with `NotDirected` when source ≠ destination, and with `InvalidArgument` when
source = destination; in both cases nothing is inserted. -/
theorem addEdge_directional_undirected (g : Graph) (s d : ℕ) (c : ℤ)
    (hdir : g.directed = false) :
    (s ≠ d → g.addEdge s d c true = (Except.error GraphError.nonDirected, g)) ∧
    (s = d → g.addEdge s d c true = (Except.error GraphError.illegalArgument, g)) := by
  constructor
  · intro hsd
    rw [Graph.addEdge, if_neg hsd, if_pos rfl,
      show (!g.directed) = true from by rw [hdir]; rfl, if_pos rfl]
  · intro hsd
    rw [Graph.addEdge, if_pos hsd]

theorem addEdge_directional_undirected_witness :
    g1.addEdge 0 1 5 true = (Except.error GraphError.nonDirected, g1) :=
  (addEdge_directional_undirected g1 0 1 5 (by decide)).1 (by decide)

/-- C5 (confirmed): the three spec scenarios on the 10-node demonstration
graph compute exactly the expected shortest paths. -/
theorem dijkstra_concrete_paths :
    dijkstra g10 0 9 = some [0, 4, 1, 6, 7, 9] ∧
    dijkstra g10 0 8 = some [0, 4, 3, 2, 8] ∧
    dijkstra g10 2 5 = some [2, 8, 5] := by
  refine ⟨?_, ?_, ?_⟩ <;> decide

/-- C6 (confirmed): when source and destination coincide, `dijkstra` returns
the single-element sequence `[n]`. -/
theorem dijkstra_source_eq_dest (g : Graph) (hb : Built g) (n : ℕ) (hn : n ∈ g.nodes) :
    dijkstra g n n = some [n] :=
  dijkstra_self_eq hb hn

theorem dijkstra_source_eq_dest_witness : dijkstra g10 3 3 = some [3] :=
  dijkstra_source_eq_dest g10 built_g10 3 (by decide)

/-- C7 counterexample: the freshly-constructed graph (the empty call sequence)
already violates squareness — its matrix is `[[None]]` (one row, one column)
while the node count is 0. -/
theorem fresh_graph_matrix_not_square :
    Built (Graph.init false) ∧ (Graph.init false).matrix.length ≠ (Graph.init false).ncount :=
  ⟨Built.init false, by decide⟩

/-- C7 (amended): in every API-reachable graph state with at least one node
(that is, after the first `addNode`), the adjacency matrix is square with
row count = column count = node count; the freshly-constructed state instead
holds the degenerate 1×1 matrix `[[None]]` with zero nodes. -/
theorem matrix_square_after_first_node (g : Graph) (hb : Built g) (h1 : 1 ≤ g.ncount) :
    g.matrix.length = g.ncount ∧ ∀ row ∈ g.matrix, row.length = g.ncount :=
  (built_inv hb).2.2.1 h1

theorem matrix_square_after_first_node_witness :
    g10.matrix.length = g10.ncount ∧ ∀ row ∈ g10.matrix, row.length = g10.ncount :=
  matrix_square_after_first_node g10 built_g10 (by decide)

/-- C8 (confirmed): in every API-reachable state of an undirected graph, every
populated matrix cell lies strictly above the diagonal: row < column.  In
particular the mirror cell of a populated cell is never stored. -/
theorem undirected_cells_upper_triangular (g : Graph) (hb : Built g)
    (hdir : g.directed = false) (i j : ℕ) (hij : (cellAt g i j).isSome) : i < j :=
  ((built_inv hb).2.2.2 i j hij).2 hdir

theorem undirected_cells_upper_triangular_witness :
    (cellAt g10 0 1).isSome = true ∧ 0 < 1 :=
  ⟨by decide, undirected_cells_upper_triangular g10 built_g10 (by decide) 0 1 (by decide)⟩

/-- C9 (confirmed): for every valid node, `neighbours` returns exactly the
nodes one edge away (those for which `edge` finds a stored cost), ordered by
the increasing-index row scan followed, for undirected graphs, by the
increasing-index prior-row column scan. -/
theorem neighbours_spec_order (g : Graph) (hb : Built g) (n : ℕ) (hn : n ∈ g.nodes) :
    g.neighbours n = specNeighbours g n ∧
    ∀ m, m ∈ g.neighbours n ↔ (g.edge n m).isSome := by
  have hInv := built_inv hb
  have hlt : n < g.ncount := (mem_nodes_iff hb n).mp hn
  exact ⟨neighbours_eq_spec hInv hlt, fun m => mem_neighbours_iff_edge hInv hlt⟩

theorem neighbours_spec_order_witness :
    g10.neighbours 4 = specNeighbours g10 4 ∧
    ∀ m, m ∈ g10.neighbours 4 ↔ (g10.edge 4 m).isSome :=
  neighbours_spec_order g10 built_g10 4 (by decide)

/-- C10 (confirmed): if the destination argument is not a member of the node
sequence, the loop drains the whole working set without ever matching it and
the function falls off its end — Python returns `None`, distinct from both an
empty sequence and a raised error. -/
theorem dijkstra_invalid_dest_none (g : Graph) (hb : Built g) (s d : ℕ)
    (hs : s ∈ g.nodes) (hd : d ∉ g.nodes) : dijkstra g s d = none :=
  dijkstra_invalid_dest_eq hd

theorem dijkstra_invalid_dest_none_witness : dijkstra g10 0 42 = none :=
  dijkstra_invalid_dest_none g10 built_g10 0 42 (by decide) (by decide)

/-! ## C3: tracing the loop, and the full-relaxation reference -/

theorem dijkstraLoopT_fst (g : Graph) (destination : ℕ) :
    ∀ (fuel : ℕ) (unv : List ℕ) (dist : List Dist) (prev : List (Option ℕ)),
      (dijkstraLoopT g destination fuel unv dist prev).1
        = dijkstraLoop g destination fuel unv dist prev := by
  intro fuel
  induction fuel with
  | zero =>
    intro unv dist prev
    rcases unv with _ | ⟨u, us⟩ <;> rfl
  | succ fuel ih =>
    intro unv dist prev
    rcases unv with _ | ⟨u, us⟩
    · rfl
    rw [dijkstraLoopT, dijkstraLoop]
    dsimp only
    by_cases h : pickMin dist u us = destination
    · rw [if_pos h, if_pos h]
    · rw [if_neg h, if_neg h]
      exact ih _ _ _

theorem dijkstraT_fst (g : Graph) (s d : ℕ) : (dijkstraT g s d).1 = dijkstra g s d :=
  dijkstraLoopT_fst g d _ _ _ _

theorem reach_g10_0_9 : reach g10 0 9 := by
  have h1 : adjStep g10 0 1 := by decide
  have h2 : adjStep g10 1 6 := by decide
  have h3 : adjStep g10 6 7 := by decide
  have h4 : adjStep g10 7 9 := by decide
  exact Relation.ReflTransGen.head h1 (Relation.ReflTransGen.head h2
    (Relation.ReflTransGen.head h3 (Relation.ReflTransGen.single h4)))

/-- C3 counterexample: querying 0 → 4 on the demonstration graph returns with
the working set far from empty and the distance of node 9 — reachable from
the source — still infinite: the search early-exits at the destination
instead of draining the working set and computing all reachable distances. -/
theorem dijkstra_no_early_exit_counterexample :
    (dijkstraT g10 0 4).1 = dijkstra g10 0 4 ∧
    (dijkstraT g10 0 4).2.1 ≠ [] ∧
    reach g10 0 9 ∧
    (dijkstraT g10 0 4).2.2.getD 9 ⊤ = ⊤ := by
  refine ⟨dijkstraT_fst g10 0 4, by decide, reach_g10_0_9, by decide⟩

/-! ## Simulation: early exit is extensionally full relaxation -/

theorem dijkstraRefLoop_length (g : Graph) :
    ∀ (fuel : ℕ) (unv : List ℕ) (dist : List Dist) (prev : List (Option ℕ)),
      (dijkstraRefLoop g fuel unv dist prev).1.length = dist.length ∧
      (dijkstraRefLoop g fuel unv dist prev).2.length = prev.length := by
  intro fuel
  induction fuel with
  | zero =>
    intro unv dist prev
    rcases unv with _ | ⟨u, us⟩ <;> exact ⟨rfl, rfl⟩
  | succ fuel ih =>
    intro unv dist prev
    rcases unv with _ | ⟨u, us⟩
    · exact ⟨rfl, rfl⟩
    rw [dijkstraRefLoop]
    have h1 := relaxList_length g ((u :: us).erase (pickMin dist u us)) (pickMin dist u us)
      (g.neighbours (pickMin dist u us)) dist prev
    have h2 := ih ((u :: us).erase (pickMin dist u us))
      (relaxList g ((u :: us).erase (pickMin dist u us)) (pickMin dist u us)
        (g.neighbours (pickMin dist u us)) dist prev).1
      (relaxList g ((u :: us).erase (pickMin dist u us)) (pickMin dist u us)
        (g.neighbours (pickMin dist u us)) dist prev).2
    exact ⟨h2.1.trans h1.1, h2.2.trans h1.2⟩

theorem dijkstraRefLoop_frozen (g : Graph) {v : ℕ} :
    ∀ (fuel : ℕ) (unv : List ℕ) (dist : List Dist) (prev : List (Option ℕ)), v ∉ unv →
      (dijkstraRefLoop g fuel unv dist prev).1.getD v ⊤ = dist.getD v ⊤ ∧
      (dijkstraRefLoop g fuel unv dist prev).2.getD v none = prev.getD v none := by
  intro fuel
  induction fuel with
  | zero =>
    intro unv dist prev _
    rcases unv with _ | ⟨u, us⟩ <;> exact ⟨rfl, rfl⟩
  | succ fuel ih =>
    intro unv dist prev hv
    rcases unv with _ | ⟨u, us⟩
    · exact ⟨rfl, rfl⟩
    rw [dijkstraRefLoop]
    have hvrest : v ∉ (u :: us).erase (pickMin dist u us) :=
      fun hc => hv ((List.erase_sublist _ _).mem hc)
    have h1 := relaxList_not_mem g ((u :: us).erase (pickMin dist u us)) (pickMin dist u us)
      hvrest (g.neighbours (pickMin dist u us)) dist prev
    have h2 := ih ((u :: us).erase (pickMin dist u us))
      (relaxList g ((u :: us).erase (pickMin dist u us)) (pickMin dist u us)
        (g.neighbours (pickMin dist u us)) dist prev).1
      (relaxList g ((u :: us).erase (pickMin dist u us)) (pickMin dist u us)
        (g.neighbours (pickMin dist u us)) dist prev).2 hvrest
    exact ⟨h2.1.trans h1.1, h2.2.trans h1.2⟩

theorem prevClosed_step (g : Graph) {u : ℕ} {us : List ℕ} (dist : List Dist)
    {prev : List (Option ℕ)} (hnd : (u :: us).Nodup) (hcl : PrevClosed (u :: us) prev)
    {current : ℕ} (ns : List ℕ) :
    PrevClosed ((u :: us).erase current)
      (relaxList g ((u :: us).erase current) current ns dist prev).2 := by
  intro v w hw
  rcases relaxList_prev_cases g ((u :: us).erase current) current ns dist prev v with h | h
  · rw [h] at hw
    exact fun hc => hcl v w hw ((List.erase_sublist _ _).mem hc)
  · rw [h] at hw
    have hwc : w = current := (Option.some_injective _ hw).symm
    rw [hwc]
    exact hnd.not_mem_erase

theorem pathWalk_congr {prevA prevB : List (Option ℕ)} {S : List ℕ}
    (hagree : ∀ v, v ∉ S → prevA.getD v none = prevB.getD v none)
    (hclosed : ∀ v w, prevA.getD v none = some w → w ∉ S) :
    ∀ (fuel start : ℕ), start ∉ S → pathWalk prevA start fuel = pathWalk prevB start fuel := by
  intro fuel
  induction fuel with
  | zero =>
    intro start _
    rfl
  | succ fuel ih =>
    intro start hs
    rw [pathWalk, pathWalk, ← hagree start hs]
    rcases hp : prevA.getD start none with _ | p
    · rfl
    · dsimp only
      rw [ih p (hclosed start p hp)]

/-- The early-exit loop computes exactly the full-relaxation loop's walk: both
runs coincide until the destination is selected, and after that moment the
reference run can no longer change any predecessor on the walk from the
destination, because relaxation only touches nodes still in the working set. -/
theorem dijkstraLoop_eq_ref {g : Graph} (hb : Built g) (dest : ℕ) :
    ∀ (fuel : ℕ) (unv : List ℕ) (dist : List Dist) (prev : List (Option ℕ)),
      unv.length ≤ fuel → unv.Nodup → (∀ m ∈ unv, m ∈ g.nodes) → dest ∈ unv →
      PrevClosed unv prev →
      dijkstraLoop g dest fuel unv dist prev
        = (pathWalk (dijkstraRefLoop g fuel unv dist prev).2 dest
            ((dijkstraRefLoop g fuel unv dist prev).2.length + 1)).map List.reverse := by
  have hInv := built_inv hb
  intro fuel
  induction fuel with
  | zero =>
    intro unv dist prev hf _ _ hdest _
    rcases unv with _ | ⟨u, us⟩
    · exact absurd hdest (List.not_mem_nil dest)
    · rw [List.length_cons] at hf
      omega
  | succ fuel ih =>
    intro unv dist prev hf hnd hsub hdest hcl
    rcases unv with _ | ⟨u, us⟩
    · exact absurd hdest (List.not_mem_nil dest)
    rw [dijkstraLoop, dijkstraRefLoop]
    have hcur0 : pickMin dist u us ∈ u :: us := pickMin_mem dist u us
    generalize hgen : pickMin dist u us = current
    rw [hgen] at hcur0
    have hcn : current < g.ncount := (mem_nodes_iff hb current).mp (hsub current hcur0)
    by_cases hcd : current = dest
    · rw [if_pos hcd]
      have hdnr : dest ∉ (u :: us).erase current := by
        rw [← hcd]
        exact hnd.not_mem_erase
      have hagree : ∀ v, v ∉ (u :: us).erase current →
          prev.getD v none
            = (dijkstraRefLoop g fuel ((u :: us).erase current)
                (relaxList g ((u :: us).erase current) current
                  (g.neighbours current) dist prev).1
                (relaxList g ((u :: us).erase current) current
                  (g.neighbours current) dist prev).2).2.getD v none := by
        intro v hv
        rw [(dijkstraRefLoop_frozen g fuel ((u :: us).erase current)
            (relaxList g ((u :: us).erase current) current
              (g.neighbours current) dist prev).1
            (relaxList g ((u :: us).erase current) current
              (g.neighbours current) dist prev).2 hv).2,
          (relaxList_not_mem g ((u :: us).erase current) current hv
            (g.neighbours current) dist prev).2]
      have hclosed : ∀ v w, prev.getD v none = some w → w ∉ (u :: us).erase current :=
        fun v w hw hc => hcl v w hw ((List.erase_sublist _ _).mem hc)
      have hwalk := pathWalk_congr hagree hclosed (prev.length + 1) dest hdnr
      rw [hwalk]
      have hlen : (dijkstraRefLoop g fuel ((u :: us).erase current)
          (relaxList g ((u :: us).erase current) current
            (g.neighbours current) dist prev).1
          (relaxList g ((u :: us).erase current) current
            (g.neighbours current) dist prev).2).2.length = prev.length := by
        rw [(dijkstraRefLoop_length g fuel ((u :: us).erase current)
            (relaxList g ((u :: us).erase current) current
              (g.neighbours current) dist prev).1
            (relaxList g ((u :: us).erase current) current
              (g.neighbours current) dist prev).2).2,
          (relaxList_length g ((u :: us).erase current) current
            (g.neighbours current) dist prev).2]
      rw [hlen]
    · rw [if_neg hcd]
      have hiff : ∀ m ∈ g.neighbours current, (m ∈ u :: us ↔ m ∈ (u :: us).erase current) := by
        intro m hm
        have hmne : m ≠ current := by
          intro hc
          rw [hc] at hm
          exact neighbours_not_self hInv hcn hm
        exact (List.mem_erase_of_ne hmne).symm
      rw [relaxList_congr_unv g current (g.neighbours current) hiff dist prev]
      exact ih ((u :: us).erase current)
        (relaxList g ((u :: us).erase current) current (g.neighbours current) dist prev).1
        (relaxList g ((u :: us).erase current) current (g.neighbours current) dist prev).2
        (by
          rw [List.length_erase_of_mem hcur0, List.length_cons]
          rw [List.length_cons] at hf
          omega)
        (hnd.erase current)
        (fun m hm => hsub m ((List.erase_sublist _ _).mem hm))
        ((List.mem_erase_of_ne (fun h => hcd h.symm)).mpr hdest)
        (prevClosed_step g dist hnd hcl (g.neighbours current))

/-- The early-exit dijkstra equals the spec's full-relaxation reference. -/
theorem dijkstra_eq_ref {g : Graph} (hb : Built g) {s d : ℕ} (hd : d ∈ g.nodes) :
    dijkstra g s d = dijkstraRef g s d := by
  rw [dijkstra, dijkstraRef]
  apply dijkstraLoop_eq_ref hb d
  · exact le_refl _
  · exact built_nodup hb
  · exact fun m hm => hm
  · exact hd
  · intro v w hw
    rw [getD_replicate_self] at hw
    exact absurd hw (by simp)

/-- C3 (amended): the search early-exits — as soon as the selected
minimum-distance node is the destination it stops, without draining the
working set or computing the remaining reachable distances, and reconstructs
the path by walking predecessors backward from destination and reversing;
nevertheless its result equals that of the full-relaxation reference Dijkstra
for every graph and valid source/destination pair. -/
theorem dijkstra_matches_full_relaxation (g : Graph) (hb : Built g) (s d : ℕ)
    (hs : s ∈ g.nodes) (hd : d ∈ g.nodes) :
    dijkstra g s d = dijkstraRef g s d :=
  dijkstra_eq_ref hb hd

theorem dijkstra_matches_full_relaxation_witness : dijkstra g10 0 9 = dijkstraRef g10 0 9 :=
  dijkstra_matches_full_relaxation g10 built_g10 0 9 (by decide) (by decide)

end PythonGraphs
